import Mathlib

/-!
Verification of the scan/classify/check pipeline of the test-stub generation
tool.  The embedding follows `tools/scanner.py`, `tools/classifier.py` and
`tools/checker.py`: paths are lists of segments, a filesystem is the list of
its regular files, and the Python string primitives used by the code
(`str.strip`, `str.splitlines`, `str.startswith`, `str.lower`, substring
membership `in`) are modelled character-exactly on `List Char`.
-/

/-- Python `needle in haystack` on strings: substring containment. -/
def containsSub (needle : List Char) : List Char → Bool
  | [] => needle.isEmpty
  | c :: t => needle.isPrefixOf (c :: t) || containsSub needle t

/-- Python `needle in haystack` lifted to `String`. -/
def strIn (needle haystack : String) : Bool :=
  containsSub needle.data haystack.data

/-- Python `str.lower` (the code only ever lowercases ASCII extensions). -/
def pyLower (s : String) : String :=
  String.mk (s.data.map Char.toLower)

/-- Characters stripped by Python `str.strip()` (`str.isspace` characters:
ASCII whitespace plus the Unicode space characters). -/
def isPySpace (c : Char) : Bool :=
  c = ' ' || c = '\t' || c = '\n' || c = '\r' || c = '\x0b' || c = '\x0c' ||
  c = '\x1c' || c = '\x1d' || c = '\x1e' || c = '\x1f' || c = '\x85' ||
  c = '\xa0' || c = ' ' || (' ' ≤ c && c ≤ ' ') ||
  c = ' ' || c = ' ' || c = ' ' || c = ' ' || c = '　'

/-- Python `str.strip()`: drop leading and trailing whitespace. -/
def pyStrip (cs : List Char) : List Char :=
  ((cs.dropWhile isPySpace).reverse.dropWhile isPySpace).reverse

/-- Line-break characters recognised by Python `str.splitlines`. -/
def isLineBreak (c : Char) : Bool :=
  c = '\n' || c = '\r' || c = '\x0b' || c = '\x0c' ||
  c = '\x1c' || c = '\x1d' || c = '\x1e' || c = '\x85' ||
  c = ' ' || c = ' '

/-- Worker for `pySplitlines`: `cur` is the reversed current line; a
`"\r\n"` pair ends one line. -/
def splitlinesGo : List Char → List Char → List (List Char)
  | [], cur => [cur.reverse]
  | '\r' :: '\n' :: rest2, cur =>
    cur.reverse :: (if rest2.isEmpty then [] else splitlinesGo rest2 [])
  | c :: rest, cur =>
    if isLineBreak c then
      cur.reverse :: (if rest.isEmpty then [] else splitlinesGo rest [])
    else
      splitlinesGo rest (c :: cur)

/-- Python `str.splitlines()` (no trailing empty line after a final break). -/
def pySplitlines (cs : List Char) : List (List Char) :=
  if cs.isEmpty then [] else splitlinesGo cs []

/-- Python `str.startswith(tuple)`. -/
def startsWithAny (cs : List Char) (pres : List String) : Bool :=
  pres.any (fun p => p.data.isPrefixOf cs)

/-- `CodeClassifier._count_code_lines`: count lines that are non-empty after
stripping and do not start with one of the comment markers. -/
def count_code_lines (content : String) : Nat :=
  (pySplitlines content.data).foldl
    (fun lines line =>
      let stripped := pyStrip line
      if stripped.isEmpty then lines
      else if startsWithAny stripped ["#", "//"] then lines
      else if startsWithAny stripped ["/*", "*", "--"] then lines
      else lines + 1) 0

/-- The spec's line-counting rule, stated from its words: a line counts as
code iff, after trimming surrounding whitespace, it is non-empty and does not
begin with one of the five comment markers. -/
def specIsCodeLine (line : List Char) : Bool :=
  let t := pyStrip line
  !t.isEmpty && !(["#", "//", "/*", "*", "--"].any (fun m => m.data.isPrefixOf t))

/-! ### Paths and the filesystem model

A path is its list of segments (`pathlib.PurePath.parts`); a filesystem is
the list of its regular files.  Directories are implicit: a directory exists
exactly when some regular file lies strictly below it.  (Empty directories
cannot be represented; no claim depends on one.) -/

/-- A filesystem path, as its list of segments (`PurePath.parts`). -/
abbrev SegPath := List String

/-- `pathlib.PurePath.name`: the final path segment (`""` for the empty
path, as in pathlib). -/
def pathName (p : SegPath) : String := p.getLastD ""

/-- Python `str.rfind(c)`: index of the last occurrence, `none` if absent. -/
def rfindIdx (c : Char) (cs : List Char) : Option Nat :=
  match cs.reverse.findIdx? (· = c) with
  | none => none
  | some r => some (cs.length - 1 - r)

/-- `pathlib.PurePath.suffix`: from the last dot on, provided that dot is
neither the first nor the last character of the name; `""` otherwise. -/
def nameSuffix (name : String) : String :=
  match rfindIdx '.' name.data with
  | none => ""
  | some i =>
    if 0 < i ∧ i < name.data.length - 1 then String.mk (name.data.drop i) else ""

/-- `pathlib.PurePath.stem`: the name up to (excluding) the suffix dot, or
the whole name when there is no suffix. -/
def nameStem (name : String) : String :=
  match rfindIdx '.' name.data with
  | none => name
  | some i =>
    if 0 < i ∧ i < name.data.length - 1 then String.mk (name.data.take i) else name

/-! ### `tools/scanner.py` -/

/-- `FileScanner.__init__`: root, extension allow-list, excluded directory
names, with the defaults from the source. -/
structure FileScanner where
  root : SegPath
  extensions : List String :=
    [".py", ".js", ".ts", ".java", ".cpp", ".cs", ".go", ".rb", ".php", ".rs"]
  exclude_dirs : List String :=
    [".git", "node_modules", "venv", "__pycache__", "dist", "build"]

/-- `FileScanner._is_excluded`: some segment of `path.parts` (the root's own
segments included, as in the source) is an excluded directory name. -/
def FileScanner.is_excluded (s : FileScanner) (p : SegPath) : Bool :=
  p.any (fun part => s.exclude_dirs.contains part)

/-- `FileScanner._has_valid_ext`: `path.suffix.lower() in self.extensions`.
Only the file's suffix is lowercased; allow-list entries are compared
verbatim. -/
def FileScanner.has_valid_ext (s : FileScanner) (p : SegPath) : Bool :=
  s.extensions.contains (pyLower (nameSuffix (pathName p)))

/-- `FileScanner.scan`.  `files` holds the root-relative paths of the
regular files below the root; `root.rglob("*")` also yields directories,
which the `is_file()` test discards, so only the files remain.  Each yielded
path is the absolute `root ++ rel`, filtered by exclusion and extension. -/
def FileScanner.scan (s : FileScanner) (files : List SegPath) : List SegPath :=
  (files.map (fun rel => s.root ++ rel)).filter
    (fun p => !s.is_excluded p && s.has_valid_ext p)

/-! ### `tools/classifier.py` -/

/-- Worker for `dedupFirst`; `seen` collects the keys already inserted. -/
def dedupFirstAux (seen : List String) : List String → List String
  | [] => []
  | x :: xs =>
    if seen.contains x then dedupFirstAux seen xs
    else x :: dedupFirstAux (x :: seen) xs

/-- `list(dict.fromkeys(names))`: drop every occurrence after the first. -/
def dedupFirst (l : List String) : List String := dedupFirstAux [] l

/-- A Python statement as seen by the `ast` module, reduced to what
`_extract_function_names` inspects: `ast.FunctionDef` and
`ast.AsyncFunctionDef` (a distinct node type, not matched by
`isinstance(node, ast.FunctionDef)`), `ast.ClassDef`, other compound
statements carrying nested statement blocks, and simple statements. -/
inductive PyStmt : Type where
  | functionDef (name : String) (body : List PyStmt)
  | asyncFunctionDef (name : String) (body : List PyStmt)
  | classDef (name : String) (body : List PyStmt)
  | compound (body : List PyStmt)
  | simple
deriving Repr

mutual
/-- Number of nodes of a statement (termination measure for the walk). -/
def PyStmt.size : PyStmt → Nat
  | .functionDef _ b => 1 + PyStmt.sizeList b
  | .asyncFunctionDef _ b => 1 + PyStmt.sizeList b
  | .classDef _ b => 1 + PyStmt.sizeList b
  | .compound b => 1 + PyStmt.sizeList b
  | .simple => 1
/-- Total number of nodes of a statement list. -/
def PyStmt.sizeList : List PyStmt → Nat
  | [] => 0
  | s :: r => PyStmt.size s + PyStmt.sizeList r
end

/-- `ast.iter_child_nodes`, restricted to statement children. -/
def PyStmt.children : PyStmt → List PyStmt
  | .functionDef _ b => b
  | .asyncFunctionDef _ b => b
  | .classDef _ b => b
  | .compound b => b
  | .simple => []

/-- `ast.walk`: breadth-first traversal with a queue that pops the front
node and pushes its children at the back. -/
def walkQueue : List PyStmt → List PyStmt
  | [] => []
  | s :: rest => s :: walkQueue (rest ++ s.children)
termination_by q => PyStmt.sizeList q
decreasing_by
  have hApp : ∀ a b : List PyStmt,
      PyStmt.sizeList (a ++ b) = PyStmt.sizeList a + PyStmt.sizeList b := by
    intro a b
    induction a with
    | nil => simp [PyStmt.sizeList]
    | cons x xs ih => simp [PyStmt.sizeList, ih]; omega
  have hLt : ∀ s : PyStmt, PyStmt.sizeList s.children < PyStmt.size s := by
    intro s
    cases s <;> simp [PyStmt.children, PyStmt.size, PyStmt.sizeList]
  simp only [PyStmt.sizeList, hApp]
  have := hLt s
  omega

/-- A Python module body, as `ast.parse` returns it. -/
structure PyModule where
  body : List PyStmt
deriving Repr

/-- `isinstance(node, ast.FunctionDef)` plus `node.name`: the name of a
`FunctionDef` node, and nothing for any other node kind. -/
def fnDefName : PyStmt → Option String
  | .functionDef n _ => some n
  | _ => none

/-- The Python branch of `_extract_function_names`: walk the whole tree and
keep the name of every `ast.FunctionDef` node, in walk order. -/
def pythonFunctionNames (m : PyModule) : List String :=
  (walkQueue m.body).filterMap fnDefName

mutual
/-- A `FunctionDef` node named `n` occurs somewhere in the statement. -/
def PyStmt.hasFunDef (n : String) : PyStmt → Bool
  | .functionDef m b => m == n || PyStmt.listHasFunDef n b
  | .asyncFunctionDef _ b => PyStmt.listHasFunDef n b
  | .classDef _ b => PyStmt.listHasFunDef n b
  | .compound b => PyStmt.listHasFunDef n b
  | .simple => false
/-- A `FunctionDef` node named `n` occurs somewhere in the statement list. -/
def PyStmt.listHasFunDef (n : String) : List PyStmt → Bool
  | [] => false
  | s :: r => PyStmt.hasFunDef n s || PyStmt.listHasFunDef n r
end

/-- The two extraction capabilities that cannot be embedded directly:
`ast.parse` (CPython's parser; `none` models a `SyntaxError`) and, for the
heuristic languages, the `re.findall` results of the language's rules,
concatenated in rule order then match order, exactly as the code's
`names.extend` calls produce them. -/
structure ExtractOracle where
  pyParse : String → Option PyModule
  regexMatches : String → String → List String

/-- The nine languages handled by the heuristic `elif` branches of
`_extract_function_names`. -/
def HEURISTIC_LANGUAGES : List String :=
  ["JavaScript", "TypeScript", "Java", "C++", "C#", "Go", "Ruby", "PHP", "Rust"]

/-- The `names` list of `_extract_function_names` just before deduplication:
the Python branch walks the parse tree (empty on `SyntaxError`), the
heuristic branches concatenate their rule matches, any other language falls
through with no names. -/
def rawFunctionNames (o : ExtractOracle) (content language : String) : List String :=
  if language = "Python" then
    match o.pyParse content with
    | some m => pythonFunctionNames m
    | none => []
  else if HEURISTIC_LANGUAGES.contains language then
    o.regexMatches language content
  else []

/-- `CodeClassifier._extract_function_names`: collect names, deduplicate. -/
def extract_function_names (o : ExtractOracle) (content language : String) :
    List String :=
  dedupFirst (rawFunctionNames o content language)

/-- `CodeClassifier.DEFAULT_EXTENSIONS`. -/
def DEFAULT_EXTENSIONS : List String :=
  [".py", ".js", ".ts", ".java", ".cpp", ".cs", ".go", ".rb", ".php", ".rs"]

/-- `CodeClassifier.LANGUAGE_MAP`. -/
def LANGUAGE_MAP : List (String × String) :=
  [(".py", "Python"), (".js", "JavaScript"), (".ts", "TypeScript"),
   (".java", "Java"), (".cpp", "C++"), (".cs", "C#"), (".go", "Go"),
   (".rb", "Ruby"), (".php", "PHP"), (".rs", "Rust")]

/-- `CodeClassifier.__init__` with the source's defaults. -/
structure CodeClassifier where
  min_bytes : Nat := 100
  min_loc : Nat := 10
  extensions : List String := DEFAULT_EXTENSIONS

/-- A regular file: its path, its `stat().st_size` in bytes, and the result
of `read_text(encoding="utf-8")` (`none` models a decode or read failure). -/
structure FsFile where
  path : SegPath
  size : Nat
  content : Option String
deriving Repr, DecidableEq

/-- `path.is_file()` plus the subsequent `stat`/`read_text` on that path. -/
def lookupFile (fs : List FsFile) (p : SegPath) : Option FsFile :=
  fs.find? (fun f => f.path == p)

/-- `LANGUAGE_MAP.get(ext, "Unknown")`. -/
def languageOf (ext : String) : String :=
  (LANGUAGE_MAP.lookup ext).getD "Unknown"

/-- One metadata dict of `CodeClassifier.classify`, later enriched by
`TestChecker.annotate` with the `needs_test` key. -/
structure FileRecord where
  path : SegPath
  language : String
  lines_of_code : Nat
  func_names : List String
  needs_test : Option Bool := none
deriving Repr, DecidableEq

/-- The body of `CodeClassifier.classify`'s loop for one path: apply the
filters in source order and build the metadata record. -/
def CodeClassifier.classifyFile (c : CodeClassifier) (o : ExtractOracle)
    (fs : List FsFile) (p : SegPath) : Option FileRecord :=
  match lookupFile fs p with
  | none => none
  | some f =>
    if c.extensions.contains (pyLower (nameSuffix (pathName p))) then
      if f.size < c.min_bytes then none
      else
        match f.content with
        | none => none
        | some content =>
          let loc := count_code_lines content
          if loc < c.min_loc then none
          else
            let lang := languageOf (pyLower (nameSuffix (pathName p)))
            some { path := p, language := lang, lines_of_code := loc,
                   func_names := extract_function_names o content lang,
                   needs_test := none }
    else none

/-- `CodeClassifier.classify`: one record per accepted path, input order. -/
def CodeClassifier.classify (c : CodeClassifier) (o : ExtractOracle)
    (fs : List FsFile) (paths : List SegPath) : List FileRecord :=
  paths.filterMap (c.classifyFile o fs)

/-! ### `tools/checker.py` -/

/-- `TestChecker.__init__` with the source's defaults. -/
structure TestChecker where
  project_root : SegPath
  test_dir_name : String := "tests"
  test_patterns : List String :=
    ["test_", "_test", "spec_", "_spec", ".test.", ".spec."]

/-- `self.tests_root = project_root / test_dir_name`. -/
def TestChecker.tests_root (tc : TestChecker) : SegPath :=
  tc.project_root ++ [tc.test_dir_name]

/-- `p.exists()`: `p` is a regular file or an inhabited directory. -/
def pathExists (fs : List FsFile) (p : SegPath) : Bool :=
  fs.any (fun f => p.isPrefixOf f.path)

/-- The names of the entries yielded by `dir.glob("*")` (non-recursive) or
`dir.rglob("*")` (recursive): for each regular file strictly below `dir`,
its own name and — in the recursive case — the name of each intermediate
directory on the way down.  Both globs yield directories as well as files.
(A name may repeat; the checker only tests existence.) -/
def dirEntryNames (fs : List FsFile) (dir : SegPath) (recursive : Bool) :
    List String :=
  fs.flatMap (fun f =>
    if dir.isPrefixOf f.path then
      if recursive then f.path.drop dir.length
      else (f.path.drop dir.length).take 1
    else [])

/-- `dir.glob(f"*{base}*")` / `dir.rglob(f"*{base}*")`: the entries whose
name contains `base` as a substring.  (The stems fed to the pattern contain
no glob metacharacters, so `*base*` is plain substring containment.) -/
def globStar (fs : List FsFile) (dir : SegPath) (base : String)
    (recursive : Bool) : List String :=
  (dirEntryNames fs dir recursive).filter (fun n => containsSub base.data n.data)

/-- One scope's candidate loop in `TestChecker.annotate`: some glob
candidate's name contains one of the test patterns. -/
def TestChecker.scopeFound (tc : TestChecker) (fs : List FsFile)
    (dir : SegPath) (base : String) (recursive : Bool) : Bool :=
  (globStar fs dir base recursive).any (fun n =>
    tc.test_patterns.any (fun pat => strIn pat n))

/-- The three-scope search of `TestChecker.annotate` for one source path:
own directory, then the sibling literal `tests` directory (guarded by
`exists()`), then the project-wide tests root recursively (same guard),
short-circuiting at the first match. -/
def TestChecker.test_found (tc : TestChecker) (fs : List FsFile)
    (src : SegPath) : Bool :=
  let base := nameStem (pathName src)
  let parent := src.dropLast
  if tc.scopeFound fs parent base false then true
  else if pathExists fs (parent ++ ["tests"]) &&
      tc.scopeFound fs (parent ++ ["tests"]) base false then true
  else if pathExists fs tc.tests_root &&
      tc.scopeFound fs tc.tests_root base true then true
  else false

/-- `TestChecker.annotate`: set `needs_test` to the negation of the search
result on every record, preserving order and cardinality. -/
def TestChecker.annotate (tc : TestChecker) (fs : List FsFile)
    (metas : List FileRecord) : List FileRecord :=
  metas.map (fun m => { m with needs_test := some (!tc.test_found fs m.path) })

/-! ### Spec-side predicates

These restate, from the spec's and the claims' words, what the searches are
supposed to find; the theorems below compare them with the code-side
functions. -/

/-- An entry named `n` lies under `dir`: some regular file sits at
`dir ++ mid ++ n :: rest`; non-recursively `mid` must be empty (direct
child), recursively `mid` is any chain of intermediate directories. -/
def EntryUnder (fs : List FsFile) (dir : SegPath) (recursive : Bool)
    (n : String) : Prop :=
  ∃ f ∈ fs, ∃ mid rest, f.path = dir ++ mid ++ n :: rest ∧
    (recursive = false → mid = [])

/-- The spec's per-scope match: some entry under the scope directory whose
name contains the stem as a substring and also contains a test pattern. -/
def ScopeTestMatch (tc : TestChecker) (fs : List FsFile) (dir : SegPath)
    (recursive : Bool) (base : String) : Prop :=
  ∃ n, EntryUnder fs dir recursive n ∧
    (∃ s t, s ++ base.data ++ t = n.data) ∧
    ∃ pat ∈ tc.test_patterns, ∃ s t, s ++ pat.data ++ t = n.data

/-- The claim's per-scope match as literally stated — only regular *files*
count, never directories: some file strictly below the scope directory (a
direct child when non-recursive) whose own name contains the stem and a
test pattern. -/
def claimFileMatch (fs : List FsFile) (dir : SegPath) (recursive : Bool)
    (base : String) (pats : List String) : Bool :=
  fs.any (fun f =>
    dir.isPrefixOf f.path && decide (dir.length < f.path.length) &&
    (recursive || f.path.length == dir.length + 1) &&
    containsSub base.data (pathName f.path).data &&
    pats.any (fun pat => containsSub pat.data (pathName f.path).data))

/-! ### Concrete fixtures used by the witness theorems -/

/-- Ten one-statement lines, each counted as code. -/
def tenLineContent : String :=
  "a = 1\nb = 2\nc = 3\nd = 4\ne = 5\nf = 6\ng = 7\nh = 8\ni = 9\nj = 10\n"

/-- An oracle whose parser always reports a syntax error and whose regex
rules match nothing. -/
def emptyOracle : ExtractOracle := ⟨fun _ => none, fun _ _ => []⟩

/-- A 100-byte Python file with exactly ten counted lines. -/
def mPyFile : FsFile := ⟨["m.py"], 100, some tenLineContent⟩

/-- A Python file large enough for the default thresholds. -/
def badPyFile : FsFile := ⟨["bad.py"], 150, some tenLineContent⟩

/-- A module with a function nested inside a compound statement inside a
method inside a class. -/
def sampleModule : PyModule :=
  ⟨[.classDef "C" [.functionDef "method" [.compound [.functionDef "inner" []]]]]⟩

/-- An oracle whose parser returns `sampleModule` for every input. -/
def sampleOracle : ExtractOracle := ⟨fun _ => some sampleModule, fun _ _ => []⟩

/-- A classifier configured with an extension outside the language map. -/
def txtClassifier : CodeClassifier :=
  { min_bytes := 1, min_loc := 1, extensions := [".txt"] }

/-- A text file accepted by `txtClassifier`. -/
def txtFile : FsFile := ⟨["a.txt"], 10, some "hello"⟩

/-- A checker rooted at the filesystem root, with default settings. -/
def chkTC : TestChecker := { project_root := [] }

/-- Source file plus a deeply nested matching test under the global tests
root. -/
def chkFs : List FsFile :=
  [⟨["app.py"], 1, none⟩, ⟨["tests", "sub", "test_app.py"], 1, none⟩]

/-- A classified record for `app.py`. -/
def appRecord : FileRecord :=
  { path := ["app.py"], language := "Python", lines_of_code := 12,
    func_names := [] }

/-- Source file whose only test-looking sibling is a *directory*
(`pkg/test_utils/`); no regular file in any scope matches. -/
def cexFs : List FsFile :=
  [⟨["pkg", "utils.py"], 1, none⟩, ⟨["pkg", "test_utils", "data.txt"], 1, none⟩]

/-- A classified record for `pkg/utils.py`. -/
def utilsRecord : FileRecord :=
  { path := ["pkg", "utils.py"], language := "Python", lines_of_code := 12,
    func_names := [] }

/-- A lone source file whose own name carries a test marker. -/
def selfFs : List FsFile := [⟨["test_utils.py"], 1, none⟩]

/-- A classified record for `test_utils.py` itself. -/
def selfRecord : FileRecord :=
  { path := ["test_utils.py"], language := "Python", lines_of_code := 12,
    func_names := [] }

/-! ## Helper lemmas -/

lemma contains_iff_mem (l : List String) (a : String) :
    l.contains a = true ↔ a ∈ l := List.elem_iff

lemma containsSub_iff (n h : List Char) :
    containsSub n h = true ↔ ∃ s t, s ++ n ++ t = h := by
  induction h with
  | nil =>
    simp only [containsSub, List.isEmpty_iff]
    constructor
    · rintro rfl
      exact ⟨[], [], rfl⟩
    · rintro ⟨s, t, hst⟩
      rcases List.append_eq_nil.mp hst with ⟨h1, -⟩
      rcases List.append_eq_nil.mp h1 with ⟨-, h2⟩
      exact h2
  | cons c rest ih =>
    simp only [containsSub, Bool.or_eq_true, List.isPrefixOf_iff_prefix, ih]
    constructor
    · rintro (⟨t, ht⟩ | ⟨s, t, rfl⟩)
      · exact ⟨[], t, by simpa using ht⟩
      · exact ⟨c :: s, t, rfl⟩
    · rintro ⟨s, t, hst⟩
      cases s with
      | nil => exact Or.inl ⟨t, by simpa using hst⟩
      | cons x xs =>
        simp only [List.cons_append, List.cons.injEq] at hst
        exact Or.inr ⟨xs, t, by simpa using hst.2⟩

lemma strIn_iff (needle haystack : String) :
    strIn needle haystack = true ↔
      ∃ s t, s ++ needle.data ++ t = haystack.data :=
  containsSub_iff needle.data haystack.data

lemma count_step_eq (line : List Char) (acc : Nat) :
    (if (pyStrip line).isEmpty then acc
     else if startsWithAny (pyStrip line) ["#", "//"] then acc
     else if startsWithAny (pyStrip line) ["/*", "*", "--"] then acc
     else acc + 1)
    = (if specIsCodeLine line then acc + 1 else acc) := by
  simp only [specIsCodeLine, startsWithAny, List.any_cons, List.any_nil]
  by_cases h0 : (pyStrip line).isEmpty = true <;>
  by_cases ha : ("#".data).isPrefixOf (pyStrip line) = true <;>
  by_cases hb : ("//".data).isPrefixOf (pyStrip line) = true <;>
  by_cases hc : ("/*".data).isPrefixOf (pyStrip line) = true <;>
  by_cases hd : ("*".data).isPrefixOf (pyStrip line) = true <;>
  by_cases he : ("--".data).isPrefixOf (pyStrip line) = true <;>
  simp [h0, ha, hb, hc, hd, he]

lemma count_foldl_eq (lines : List (List Char)) (n : Nat) :
    lines.foldl
      (fun acc line =>
        let stripped := pyStrip line
        if stripped.isEmpty then acc
        else if startsWithAny stripped ["#", "//"] then acc
        else if startsWithAny stripped ["/*", "*", "--"] then acc
        else acc + 1) n
    = n + (lines.filter specIsCodeLine).length := by
  induction lines generalizing n with
  | nil => simp
  | cons l rest ih =>
    simp only [List.foldl_cons]
    rw [count_step_eq l n]
    by_cases h : specIsCodeLine l
    · rw [ih]
      simp [h, List.filter_cons]
      omega
    · rw [ih]
      simp [h, List.filter_cons]

/-- C6: a line counts toward `lines_of_code` iff, after trimming surrounding
whitespace, it is non-empty and does not begin with `#`, `//`, `/*`, `*` or
`--`; in particular a statement with a trailing inline comment counts as one
code line and a line starting with a comment marker counts as zero. -/
theorem count_code_lines_iff_spec (content : String) :
    count_code_lines content =
      ((pySplitlines content.data).filter specIsCodeLine).length ∧
    count_code_lines "x = 1  # note" = 1 ∧
    count_code_lines "   # note" = 0 ∧
    count_code_lines "  // note" = 0 := by
  refine ⟨?_, by decide, by decide, by decide⟩
  unfold count_code_lines
  simpa using count_foldl_eq (pySplitlines content.data) 0

/-- C5: no path yielded by `scan` has any segment, at any depth, equal to an
excluded directory name. -/
theorem scan_no_excluded_segment (s : FileScanner) (files : List SegPath)
    (p : SegPath) (hp : p ∈ s.scan files) (d : String)
    (hd : d ∈ s.exclude_dirs) (seg : String) (hseg : seg ∈ p) : seg ≠ d := by
  rintro rfl
  rcases List.mem_filter.mp hp with ⟨-, hpred⟩
  rcases Bool.and_eq_true _ _ |>.mp hpred with ⟨hexc, -⟩
  have : s.is_excluded p = false := by
    cases h : s.is_excluded p
    · rfl
    · rw [h] at hexc; cases hexc
  have hany : ¬ (p.any (fun part => s.exclude_dirs.contains part) = true) := by
    simpa [FileScanner.is_excluded] using this
  exact hany (List.any_eq_true.mpr ⟨seg, hseg, (contains_iff_mem _ _).mpr hd⟩)

/-- Witness for C5 at a concrete scanner, tree and segment. -/
theorem scan_no_excluded_segment_witness :
    (["r", "a.py"] ∈ FileScanner.scan { root := ["r"] } [["a.py"], [".git", "b.py"]]) ∧
    (".git" ∈ FileScanner.exclude_dirs { root := ["r"] }) ∧
    ("r" ∈ (["r", "a.py"] : SegPath)) ∧ ("r" : String) ≠ ".git" :=
  ⟨by decide, by decide, by decide,
    scan_no_excluded_segment { root := ["r"] } [["a.py"], [".git", "b.py"]]
      ["r", "a.py"] (by decide) ".git" (by decide) "r" (by decide)⟩

/-- C9 counterexample: with allow-list entry `".PY"`, the non-excluded file
`a.py` matches the entry case-insensitively, yet `scan` yields nothing,
because only the file's suffix is lowercased, never the allow-list entry. -/
theorem scan_case_counterexample :
    FileScanner.scan { root := [], extensions := [".PY"], exclude_dirs := [] }
      [["a.py"]] = [] ∧
    FileScanner.is_excluded { root := [], extensions := [".PY"], exclude_dirs := [] }
      ["a.py"] = false ∧
    pyLower (nameSuffix (pathName (["a.py"] : SegPath))) = pyLower ".PY" ∧
    ".PY" ∈ FileScanner.extensions
      { root := [], extensions := [".PY"], exclude_dirs := [] } := by
  decide

/-- C9 as amended: a regular, non-excluded file under the root is yielded by
`scan` exactly when the *lowercased* form of its extension is literally a
member of the allow-list — insensitive to the case of the file's extension,
but an allow-list entry is compared verbatim. -/
theorem scan_ext_lower_member (s : FileScanner) (files : List SegPath)
    (rel : SegPath) (hrel : rel ∈ files)
    (hexc : s.is_excluded (s.root ++ rel) = false) :
    (s.root ++ rel) ∈ s.scan files ↔
      pyLower (nameSuffix (pathName (s.root ++ rel))) ∈ s.extensions := by
  constructor
  · intro hp
    rcases List.mem_filter.mp hp with ⟨-, hpred⟩
    rcases Bool.and_eq_true _ _ |>.mp hpred with ⟨-, hext⟩
    exact (contains_iff_mem _ _).mp hext
  · intro hext
    refine List.mem_filter.mpr ⟨List.mem_map.mpr ⟨rel, hrel, rfl⟩, ?_⟩
    simp only [FileScanner.has_valid_ext, hexc, Bool.not_false, Bool.true_and]
    exact (contains_iff_mem _ _).mpr hext

/-- Witness for the amended C9 at a concrete scanner and file. -/
theorem scan_ext_lower_member_witness :
    ((["a.PY"] : SegPath) ∈ [(["a.PY"] : SegPath)]) ∧
    (FileScanner.is_excluded { root := [] } ["a.PY"] = false) ∧
    ((["a.PY"] : SegPath) ∈ FileScanner.scan { root := [] } [["a.PY"]] ↔
      pyLower (nameSuffix (pathName (["a.PY"] : SegPath))) ∈
        FileScanner.extensions { root := [] }) :=
  ⟨by decide, by decide,
    scan_ext_lower_member { root := [] } [["a.PY"]] ["a.PY"] (by decide) (by decide)⟩

lemma dedupFirstAux_cons_seen (seen : List String) (y : String)
    (ys : List String) (hy : seen.contains y = true) :
    dedupFirstAux seen (y :: ys) = dedupFirstAux seen ys := by
  simp only [dedupFirstAux, hy, if_true]

lemma dedupFirstAux_cons_new (seen : List String) (y : String)
    (ys : List String) (hy : seen.contains y = false) :
    dedupFirstAux seen (y :: ys) = y :: dedupFirstAux (y :: seen) ys := by
  simp only [dedupFirstAux, hy, Bool.false_eq_true, if_false]

lemma dedupFirstAux_mem (l : List String) :
    ∀ seen x, x ∈ dedupFirstAux seen l ↔ (x ∈ l ∧ x ∉ seen) := by
  induction l with
  | nil => intro seen x; simp [dedupFirstAux]
  | cons y ys ih =>
    intro seen x
    cases hy : seen.contains y with
    | true =>
      have hy2 : y ∈ seen := (contains_iff_mem _ _).mp hy
      rw [dedupFirstAux_cons_seen seen y ys hy, ih seen x]
      simp only [List.mem_cons]
      constructor
      · rintro ⟨hxs, hns⟩
        exact ⟨Or.inr hxs, hns⟩
      · rintro ⟨rfl | hxs, hns⟩
        · exact absurd hy2 hns
        · exact ⟨hxs, hns⟩
    | false =>
      have hy2 : y ∉ seen := by
        intro h
        have h2 := (contains_iff_mem seen y).mpr h
        rw [hy] at h2
        exact Bool.false_ne_true h2
      rw [dedupFirstAux_cons_new seen y ys hy]
      simp only [List.mem_cons, ih (y :: seen) x]
      constructor
      · rintro (rfl | ⟨hxs, hns⟩)
        · exact ⟨Or.inl rfl, hy2⟩
        · exact ⟨Or.inr hxs, fun hxseen => hns (Or.inr hxseen)⟩
      · rintro ⟨rfl | hxs, hns⟩
        · exact Or.inl rfl
        · by_cases hxy : x = y
          · exact Or.inl hxy
          · exact Or.inr ⟨hxs, fun hor => hor.elim hxy hns⟩

lemma dedupFirstAux_nodup (l : List String) :
    ∀ seen, (dedupFirstAux seen l).Nodup := by
  induction l with
  | nil => intro seen; simp [dedupFirstAux]
  | cons y ys ih =>
    intro seen
    cases hy : seen.contains y with
    | true => rw [dedupFirstAux_cons_seen seen y ys hy]; exact ih seen
    | false =>
      rw [dedupFirstAux_cons_new seen y ys hy]
      rw [List.nodup_cons]
      refine ⟨fun hmem => ?_, ih (y :: seen)⟩
      rcases (dedupFirstAux_mem ys (y :: seen) y).mp hmem with ⟨-, hns⟩
      exact hns (List.mem_cons_self y seen)

lemma dedupFirstAux_sublist (l : List String) :
    ∀ seen, List.Sublist (dedupFirstAux seen l) l := by
  induction l with
  | nil => intro seen; simp [dedupFirstAux]
  | cons y ys ih =>
    intro seen
    cases hy : seen.contains y with
    | true =>
      rw [dedupFirstAux_cons_seen seen y ys hy]
      exact (ih seen).cons y
    | false =>
      rw [dedupFirstAux_cons_new seen y ys hy]
      exact (ih (y :: seen)).cons₂ y

lemma dedupFirstAux_pairwise (l : List String) :
    ∀ seen, (dedupFirstAux seen l).Pairwise
      (fun a b => l.indexOf a < l.indexOf b) := by
  induction l with
  | nil => intro seen; simp [dedupFirstAux]
  | cons y ys ih =>
    intro seen
    cases hy : seen.contains y with
    | true =>
      have hy2 : y ∈ seen := (contains_iff_mem _ _).mp hy
      rw [dedupFirstAux_cons_seen seen y ys hy]
      refine (ih seen).imp_of_mem ?_
      intro a b ha hb hlt
      have hane : a ≠ y := by
        rcases (dedupFirstAux_mem ys seen a).mp ha with ⟨-, hns⟩
        rintro rfl; exact hns hy2
      have hbne : b ≠ y := by
        rcases (dedupFirstAux_mem ys seen b).mp hb with ⟨-, hns⟩
        rintro rfl; exact hns hy2
      rw [List.indexOf_cons_ne _ (fun h => hane h.symm),
        List.indexOf_cons_ne _ (fun h => hbne h.symm)]
      exact Nat.succ_lt_succ hlt
    | false =>
      rw [dedupFirstAux_cons_new seen y ys hy]
      rw [List.pairwise_cons]
      constructor
      · intro b hb
        have hbne : b ≠ y := by
          rcases (dedupFirstAux_mem ys (y :: seen) b).mp hb with ⟨-, hns⟩
          rintro rfl; exact hns (List.mem_cons_self _ _)
        rw [List.indexOf_cons_self, List.indexOf_cons_ne _ (fun h => hbne h.symm)]
        exact Nat.succ_pos _
      · refine (ih (y :: seen)).imp_of_mem ?_
        intro a b ha hb hlt
        have hane : a ≠ y := by
          rcases (dedupFirstAux_mem ys (y :: seen) a).mp ha with ⟨-, hns⟩
          rintro rfl; exact hns (List.mem_cons_self _ _)
        have hbne : b ≠ y := by
          rcases (dedupFirstAux_mem ys (y :: seen) b).mp hb with ⟨-, hns⟩
          rintro rfl; exact hns (List.mem_cons_self _ _)
        rw [List.indexOf_cons_ne _ (fun h => hane h.symm),
          List.indexOf_cons_ne _ (fun h => hbne h.symm)]
        exact Nat.succ_lt_succ hlt

lemma dedupFirst_mem (l : List String) (x : String) :
    x ∈ dedupFirst l ↔ x ∈ l := by
  simp [dedupFirst, dedupFirstAux_mem]

/-- C8: the extracted `function_names` list never contains a duplicate: it
holds exactly the names of the concatenated rule matches, as a duplicate-free
sublist ordered by each name's first occurrence in the raw match order. -/
theorem extract_function_names_dedup (o : ExtractOracle)
    (content language : String) :
    (extract_function_names o content language).Nodup ∧
    (∀ x, x ∈ extract_function_names o content language ↔
      x ∈ rawFunctionNames o content language) ∧
    List.Sublist (extract_function_names o content language)
      (rawFunctionNames o content language) ∧
    (extract_function_names o content language).Pairwise
      (fun a b => (rawFunctionNames o content language).indexOf a <
        (rawFunctionNames o content language).indexOf b) :=
  ⟨dedupFirstAux_nodup _ [],
   fun x => dedupFirst_mem _ x,
   dedupFirstAux_sublist _ [],
   dedupFirstAux_pairwise _ []⟩

lemma listHasFunDef_append (n : String) (a b : List PyStmt) :
    PyStmt.listHasFunDef n (a ++ b) =
      (PyStmt.listHasFunDef n a || PyStmt.listHasFunDef n b) := by
  induction a with
  | nil => simp [PyStmt.listHasFunDef]
  | cons s rest ih =>
    simp only [List.cons_append, PyStmt.listHasFunDef, List.append_eq, ih,
      Bool.or_assoc]

lemma mem_filterMap_fnDefName_cons (n : String) (s : PyStmt) (l : List PyStmt)
    (hmem : n ∈ l.filterMap fnDefName) :
    n ∈ (s :: l).filterMap fnDefName := by
  rw [List.filterMap_cons]
  cases fnDefName s with
  | none => exact hmem
  | some m => exact List.mem_cons_of_mem _ hmem

lemma walkQueue_names_complete (n : String) :
    ∀ q : List PyStmt, PyStmt.listHasFunDef n q = true →
      n ∈ (walkQueue q).filterMap fnDefName := by
  intro q
  induction q using walkQueue.induct with
  | case1 => intro h; cases h
  | case2 s rest ih =>
    intro h
    simp only [PyStmt.listHasFunDef] at h
    rw [walkQueue]
    rcases Bool.or_eq_true _ _ |>.mp h with hs | hr
    · cases s with
      | functionDef m b =>
        simp only [PyStmt.hasFunDef] at hs
        rcases Bool.or_eq_true _ _ |>.mp hs with hmn | hb
        · have hmn2 : m = n := by simpa using hmn
          subst hmn2
          simp [List.filterMap_cons, fnDefName]
        · refine mem_filterMap_fnDefName_cons n _ _ (ih ?_)
          rw [listHasFunDef_append]
          simp [PyStmt.children, hb]
      | asyncFunctionDef m b =>
        simp only [PyStmt.hasFunDef] at hs
        refine mem_filterMap_fnDefName_cons n _ _ (ih ?_)
        rw [listHasFunDef_append]
        simp [PyStmt.children, hs]
      | classDef m b =>
        simp only [PyStmt.hasFunDef] at hs
        refine mem_filterMap_fnDefName_cons n _ _ (ih ?_)
        rw [listHasFunDef_append]
        simp [PyStmt.children, hs]
      | compound b =>
        simp only [PyStmt.hasFunDef] at hs
        refine mem_filterMap_fnDefName_cons n _ _ (ih ?_)
        rw [listHasFunDef_append]
        simp [PyStmt.children, hs]
      | simple => simp [PyStmt.hasFunDef] at hs
    · refine mem_filterMap_fnDefName_cons n _ _ (ih ?_)
      rw [listHasFunDef_append]
      simp [hr]

/-- C2: every `FunctionDef` node anywhere in the parsed syntax tree — nested
functions and methods included — contributes its name to the extracted
`function_names` of a Python file. -/
theorem python_extraction_complete (o : ExtractOracle) (content : String)
    (m : PyModule) (n : String) (hparse : o.pyParse content = some m)
    (hocc : PyStmt.listHasFunDef n m.body = true) :
    n ∈ extract_function_names o content "Python" := by
  have hraw : rawFunctionNames o content "Python" = pythonFunctionNames m := by
    simp [rawFunctionNames, hparse]
  rw [extract_function_names, hraw, dedupFirst_mem]
  exact walkQueue_names_complete n m.body hocc

/-- Witness for C2: a function nested inside a compound statement inside a
method body is still extracted. -/
theorem python_extraction_complete_witness :
    (sampleOracle.pyParse "src" = some sampleModule) ∧
    (PyStmt.listHasFunDef "inner" sampleModule.body = true) ∧
    "inner" ∈ extract_function_names sampleOracle "src" "Python" :=
  ⟨rfl,
   by simp [sampleModule, PyStmt.listHasFunDef, PyStmt.hasFunDef],
   python_extraction_complete sampleOracle "src" sampleModule "inner" rfl
     (by simp [sampleModule, PyStmt.listHasFunDef, PyStmt.hasFunDef])⟩

lemma classifyFile_some (c : CodeClassifier) (o : ExtractOracle)
    (fs : List FsFile) (p : SegPath) (r : FileRecord)
    (h : c.classifyFile o fs p = some r) :
    ∃ f content, lookupFile fs p = some f ∧ f.content = some content ∧
      c.extensions.contains (pyLower (nameSuffix (pathName p))) = true ∧
      c.min_bytes ≤ f.size ∧ c.min_loc ≤ count_code_lines content ∧
      r = { path := p,
            language := languageOf (pyLower (nameSuffix (pathName p))),
            lines_of_code := count_code_lines content,
            func_names := extract_function_names o content
              (languageOf (pyLower (nameSuffix (pathName p)))),
            needs_test := none } := by
  unfold CodeClassifier.classifyFile at h
  split at h
  · exact absurd h (by simp)
  · rename_i f hf
    split at h
    · rename_i hext
      split at h
      · exact absurd h (by simp)
      · rename_i hsize
        split at h
        · exact absurd h (by simp)
        · rename_i content hcontent
          dsimp only at h
          split at h
          · exact absurd h (by simp)
          · rename_i hloc
            exact ⟨f, content, hf, hcontent, hext, by omega, by omega,
              (Option.some.inj h).symm⟩
    · exact absurd h (by simp)

/-- C7: both thresholds are inclusive — a file of exactly `min_bytes` bytes
and exactly `min_loc` counted lines is accepted — and every produced record
satisfies `min_loc ≤ lines_of_code`. -/
theorem classify_thresholds_inclusive (c : CodeClassifier) (o : ExtractOracle)
    (fs : List FsFile) (p : SegPath) (f : FsFile) (content : String)
    (paths : List SegPath)
    (hf : lookupFile fs p = some f)
    (hext : c.extensions.contains (pyLower (nameSuffix (pathName p))) = true)
    (hsize : f.size = c.min_bytes)
    (hcontent : f.content = some content)
    (hloc : count_code_lines content = c.min_loc) :
    c.classifyFile o fs p =
      some { path := p,
             language := languageOf (pyLower (nameSuffix (pathName p))),
             lines_of_code := c.min_loc,
             func_names := extract_function_names o content
               (languageOf (pyLower (nameSuffix (pathName p)))),
             needs_test := none } ∧
    ∀ r ∈ c.classify o fs paths, c.min_loc ≤ r.lines_of_code := by
  constructor
  · simp only [CodeClassifier.classifyFile, hf]
    rw [if_pos hext, if_neg (show ¬ f.size < c.min_bytes by omega)]
    simp only [hcontent]
    rw [if_neg (show ¬ count_code_lines content < c.min_loc by omega), hloc]
  · intro r hr
    rcases List.mem_filterMap.mp hr with ⟨p2, -, hsome⟩
    rcases classifyFile_some c o fs p2 r hsome with
      ⟨f2, content2, -, -, -, -, hloc2, hrec⟩
    rw [hrec]
    exact hloc2

/-- Witness for C7: the default thresholds (100 bytes, 10 lines) accept a
file of exactly 100 bytes with exactly 10 counted lines. -/
theorem classify_thresholds_inclusive_witness :
    (lookupFile [mPyFile] ["m.py"] = some mPyFile) ∧
    ((CodeClassifier.extensions {}).contains
      (pyLower (nameSuffix (pathName ["m.py"]))) = true) ∧
    (mPyFile.size = CodeClassifier.min_bytes {}) ∧
    (mPyFile.content = some tenLineContent) ∧
    (count_code_lines tenLineContent = CodeClassifier.min_loc {}) ∧
    (CodeClassifier.classifyFile {} emptyOracle [mPyFile] ["m.py"] =
      some { path := ["m.py"],
             language := languageOf (pyLower (nameSuffix (pathName ["m.py"]))),
             lines_of_code := CodeClassifier.min_loc {},
             func_names := extract_function_names emptyOracle tenLineContent
               (languageOf (pyLower (nameSuffix (pathName ["m.py"])))),
             needs_test := none } ∧
      ∀ r ∈ CodeClassifier.classify {} emptyOracle [mPyFile] [["m.py"]],
        CodeClassifier.min_loc {} ≤ r.lines_of_code) :=
  ⟨by decide, by decide, by decide, by decide, by decide,
   classify_thresholds_inclusive {} emptyOracle [mPyFile] ["m.py"] mPyFile
     tenLineContent [["m.py"]] (by decide) (by decide) (by decide) (by decide)
     (by decide)⟩

/-- C3: a Python file that passes the extension, size and line-count filters
but fails to parse still yields a record, with `lines_of_code` computed from
the content and an empty `function_names` list. -/
theorem classify_syntax_error_record (c : CodeClassifier) (o : ExtractOracle)
    (fs : List FsFile) (p : SegPath) (f : FsFile) (content : String)
    (hf : lookupFile fs p = some f)
    (hsuf : pyLower (nameSuffix (pathName p)) = ".py")
    (hext : c.extensions.contains ".py" = true)
    (hsize : c.min_bytes ≤ f.size)
    (hcontent : f.content = some content)
    (hloc : c.min_loc ≤ count_code_lines content)
    (hparse : o.pyParse content = none) :
    c.classifyFile o fs p =
      some { path := p, language := "Python",
             lines_of_code := count_code_lines content,
             func_names := [], needs_test := none } := by
  simp only [CodeClassifier.classifyFile, hf, hsuf]
  rw [if_pos hext, if_neg (show ¬ f.size < c.min_bytes by omega)]
  simp only [hcontent]
  rw [if_neg (show ¬ count_code_lines content < c.min_loc by omega)]
  have hlang : languageOf ".py" = "Python" := by decide
  rw [hlang]
  have hextract : extract_function_names o content "Python" = [] := by
    simp [extract_function_names, rawFunctionNames, hparse, dedupFirst,
      dedupFirstAux]
  rw [hextract]

/-- Witness for C3: a syntactically invalid Python file of 150 bytes and ten
counted lines is still classified, with no function names. -/
theorem classify_syntax_error_record_witness :
    (lookupFile [badPyFile] ["bad.py"] = some badPyFile) ∧
    (pyLower (nameSuffix (pathName ["bad.py"])) = ".py") ∧
    ((CodeClassifier.extensions {}).contains ".py" = true) ∧
    (CodeClassifier.min_bytes {} ≤ badPyFile.size) ∧
    (badPyFile.content = some tenLineContent) ∧
    (CodeClassifier.min_loc {} ≤ count_code_lines tenLineContent) ∧
    (emptyOracle.pyParse tenLineContent = none) ∧
    CodeClassifier.classifyFile {} emptyOracle [badPyFile] ["bad.py"] =
      some { path := ["bad.py"], language := "Python",
             lines_of_code := count_code_lines tenLineContent,
             func_names := [], needs_test := none } :=
  ⟨by decide, by decide, by decide, by decide, by decide, by decide, rfl,
   classify_syntax_error_record {} emptyOracle [badPyFile] ["bad.py"] badPyFile
     tenLineContent (by decide) (by decide) (by decide) (by decide) (by decide)
     (by decide) rfl⟩

/-- C4 counterexample: with a caller-supplied extension set `{".txt"}` the
pipeline does produce a record whose `language` is `"Unknown"`. -/
theorem classify_unknown_language_counterexample :
    (txtClassifier.classify emptyOracle [txtFile] [["a.txt"]]).map
      FileRecord.language = ["Unknown"] := by
  decide

lemma lookup_getD_mem_values (mp : List (String × String)) (e dflt : String)
    (h : (mp.lookup e).isSome = true) :
    (mp.lookup e).getD dflt ∈ mp.map Prod.snd := by
  induction mp with
  | nil => simp [List.lookup] at h
  | cons kv rest ih =>
    cases hk : (e == kv.1) with
    | true =>
      simp only [List.lookup, hk, Option.getD_some, List.map_cons]
      exact List.mem_cons_self _ _
    | false =>
      simp only [List.lookup, hk] at h ⊢
      exact List.mem_cons_of_mem _ (ih h)

lemma language_map_values_known (x : String)
    (hx : x ∈ LANGUAGE_MAP.map Prod.snd) : x ≠ "Unknown" := by
  have : ∀ y ∈ LANGUAGE_MAP.map Prod.snd, y ≠ "Unknown" := by decide
  exact this x hx

/-- C4 as amended: whenever every configured extension is a key of the
language map — in particular under the default configuration — every record's
`language` is one of the ten mapped languages and never `"Unknown"`; with a
caller-supplied extension outside the map, `"Unknown"` can appear.
`lines_of_code` is a natural number, hence non-negative, always. -/
theorem classify_language_in_map (c : CodeClassifier) (o : ExtractOracle)
    (fs : List FsFile) (paths : List SegPath)
    (hext : ∀ e ∈ c.extensions, (LANGUAGE_MAP.lookup e).isSome = true) :
    ∀ r ∈ c.classify o fs paths,
      r.language ∈ LANGUAGE_MAP.map Prod.snd ∧ r.language ≠ "Unknown" ∧
      0 ≤ r.lines_of_code := by
  intro r hr
  rcases List.mem_filterMap.mp hr with ⟨p, -, hsome⟩
  rcases classifyFile_some c o fs p r hsome with
    ⟨f, content, -, -, hmem, -, -, hrec⟩
  have hkey : pyLower (nameSuffix (pathName p)) ∈ c.extensions :=
    (contains_iff_mem _ _).mp hmem
  have hlook := hext _ hkey
  have hval : r.language =
      (LANGUAGE_MAP.lookup (pyLower (nameSuffix (pathName p)))).getD "Unknown" := by
    rw [hrec]
    simp [languageOf]
  rw [hval]
  refine ⟨lookup_getD_mem_values _ _ _ hlook, ?_, Nat.zero_le _⟩
  exact language_map_values_known _ (lookup_getD_mem_values _ _ _ hlook)

/-- Witness for the amended C4: under the default configuration the single
produced record's language is `"Python"`, a mapped language. -/
theorem classify_language_in_map_witness :
    (∀ e ∈ CodeClassifier.extensions {}, (LANGUAGE_MAP.lookup e).isSome = true) ∧
    (∀ r ∈ CodeClassifier.classify {} emptyOracle [mPyFile] [["m.py"]],
      r.language ∈ LANGUAGE_MAP.map Prod.snd ∧ r.language ≠ "Unknown" ∧
      0 ≤ r.lines_of_code) :=
  ⟨by decide,
   classify_language_in_map {} emptyOracle [mPyFile] [["m.py"]] (by decide)⟩

lemma mem_dirEntryNames (fs : List FsFile) (dir : SegPath) (recursive : Bool)
    (n : String) :
    n ∈ dirEntryNames fs dir recursive ↔ EntryUnder fs dir recursive n := by
  unfold dirEntryNames EntryUnder
  rw [List.mem_flatMap]
  constructor
  · rintro ⟨f, hf, hn⟩
    by_cases hpre : dir.isPrefixOf f.path
    · rw [if_pos hpre] at hn
      obtain ⟨rest0, hrest0⟩ := List.isPrefixOf_iff_prefix.mp hpre
      have hdrop : f.path.drop dir.length = rest0 := by
        rw [← hrest0]; exact List.drop_left dir rest0
      cases recursive with
      | true =>
        rw [if_pos rfl, hdrop] at hn
        obtain ⟨mid, rest, hsplit⟩ := List.mem_iff_append.mp hn
        refine ⟨f, hf, mid, rest, ?_, by intro h; cases h⟩
        rw [← hrest0, hsplit, List.append_assoc]
      | false =>
        rw [if_neg (by simp), hdrop] at hn
        cases rest0 with
        | nil => simp at hn
        | cons c rest =>
          rw [List.take_succ_cons, List.take_zero] at hn
          rcases List.mem_singleton.mp hn with rfl
          exact ⟨f, hf, [], rest, by rw [← hrest0]; simp, fun _ => rfl⟩
    · rw [if_neg hpre] at hn
      cases hn
  · rintro ⟨f, hf, mid, rest, hpath, hmid⟩
    have hpre : dir.isPrefixOf f.path :=
      List.isPrefixOf_iff_prefix.mpr ⟨mid ++ n :: rest, by rw [hpath, List.append_assoc]⟩
    refine ⟨f, hf, ?_⟩
    rw [if_pos hpre]
    have hdrop : f.path.drop dir.length = mid ++ n :: rest := by
      rw [hpath, List.append_assoc]; exact List.drop_left dir _
    cases recursive with
    | true =>
      rw [if_pos rfl, hdrop]
      exact List.mem_append_right mid (List.mem_cons_self n rest)
    | false =>
      rw [if_neg (by simp), hdrop, hmid rfl]
      simp

lemma scopeFound_iff (tc : TestChecker) (fs : List FsFile) (dir : SegPath)
    (base : String) (recursive : Bool) :
    tc.scopeFound fs dir base recursive = true ↔
      ScopeTestMatch tc fs dir recursive base := by
  unfold TestChecker.scopeFound ScopeTestMatch globStar
  rw [List.any_eq_true]
  constructor
  · rintro ⟨nm, hmem, hpat⟩
    rcases List.mem_filter.mp hmem with ⟨hentry, hbase⟩
    rcases List.any_eq_true.mp hpat with ⟨pat, hpmem, hp⟩
    exact ⟨nm, (mem_dirEntryNames fs dir recursive nm).mp hentry,
      (containsSub_iff _ _).mp hbase, pat, hpmem, (strIn_iff _ _).mp hp⟩
  · rintro ⟨nm, hentry, hbase, pat, hpmem, hp⟩
    refine ⟨nm, List.mem_filter.mpr
      ⟨(mem_dirEntryNames fs dir recursive nm).mpr hentry,
        (containsSub_iff _ _).mpr hbase⟩, ?_⟩
    exact List.any_eq_true.mpr ⟨pat, hpmem, (strIn_iff _ _).mpr hp⟩

lemma ScopeTestMatch.pathExists {tc : TestChecker} {fs : List FsFile}
    {dir : SegPath} {recursive : Bool} {base : String}
    (h : ScopeTestMatch tc fs dir recursive base) :
    pathExists fs dir = true := by
  rcases h with ⟨nm, ⟨f, hf, mid, rest, hpath, -⟩, -, -⟩
  refine List.any_eq_true.mpr ⟨f, hf, ?_⟩
  exact List.isPrefixOf_iff_prefix.mpr ⟨mid ++ nm :: rest, by
    rw [hpath, List.append_assoc]⟩

lemma test_found_iff (tc : TestChecker) (fs : List FsFile) (src : SegPath) :
    tc.test_found fs src = true ↔
      (ScopeTestMatch tc fs src.dropLast false (nameStem (pathName src)) ∨
       ScopeTestMatch tc fs (src.dropLast ++ ["tests"]) false
         (nameStem (pathName src)) ∨
       ScopeTestMatch tc fs tc.tests_root true (nameStem (pathName src))) := by
  unfold TestChecker.test_found
  dsimp only
  constructor
  · intro h
    by_cases h1 : tc.scopeFound fs src.dropLast (nameStem (pathName src))
        false = true
    · exact Or.inl ((scopeFound_iff tc fs _ _ false).mp h1)
    · rw [if_neg h1] at h
      by_cases h2 : (pathExists fs (src.dropLast ++ ["tests"]) &&
          tc.scopeFound fs (src.dropLast ++ ["tests"])
            (nameStem (pathName src)) false) = true
      · rcases Bool.and_eq_true _ _ |>.mp h2 with ⟨-, hb⟩
        exact Or.inr (Or.inl ((scopeFound_iff tc fs _ _ false).mp hb))
      · rw [if_neg h2] at h
        by_cases h3 : (pathExists fs tc.tests_root &&
            tc.scopeFound fs tc.tests_root (nameStem (pathName src)) true) = true
        · rcases Bool.and_eq_true _ _ |>.mp h3 with ⟨-, hb⟩
          exact Or.inr (Or.inr ((scopeFound_iff tc fs _ _ true).mp hb))
        · rw [if_neg h3] at h
          cases h
  · rintro (hS | hS | hS)
    · rw [if_pos ((scopeFound_iff tc fs _ _ false).mpr hS)]
    · by_cases h1 : tc.scopeFound fs src.dropLast (nameStem (pathName src))
          false = true
      · rw [if_pos h1]
      · rw [if_neg h1, if_pos (Bool.and_eq_true _ _ |>.mpr
          ⟨hS.pathExists, (scopeFound_iff tc fs _ _ false).mpr hS⟩)]
    · by_cases h1 : tc.scopeFound fs src.dropLast (nameStem (pathName src))
          false = true
      · rw [if_pos h1]
      · rw [if_neg h1]
        by_cases h2 : (pathExists fs (src.dropLast ++ ["tests"]) &&
            tc.scopeFound fs (src.dropLast ++ ["tests"])
              (nameStem (pathName src)) false) = true
        · rw [if_pos h2]
        · rw [if_neg h2, if_pos (Bool.and_eq_true _ _ |>.mpr
            ⟨hS.pathExists, (scopeFound_iff tc fs _ _ true).mpr hS⟩)]

/-- C1 counterexample: for `pkg/utils.py`, the sibling *directory*
`pkg/test_utils/` matches the scope-1 glob and clears the flag, although no
regular file in any of the three scopes has a name containing both the stem
and a test marker — the claim's "contains a file" reading predicts
`needs_test = true`, but the code sets it to `false`. -/
theorem annotate_file_only_counterexample :
    ((chkTC.annotate cexFs [utilsRecord]).map FileRecord.needs_test =
      [some false]) ∧
    (claimFileMatch cexFs utilsRecord.path.dropLast false
      (nameStem (pathName utilsRecord.path)) chkTC.test_patterns = false) ∧
    (claimFileMatch cexFs (utilsRecord.path.dropLast ++ ["tests"]) false
      (nameStem (pathName utilsRecord.path)) chkTC.test_patterns = false) ∧
    (claimFileMatch cexFs chkTC.tests_root true
      (nameStem (pathName utilsRecord.path)) chkTC.test_patterns = false) := by
  decide

/-- C1 as amended: `needs_test` is `true` iff none of the three scopes —
own directory non-recursively, sibling `tests` non-recursively, project test
root recursively, searched in that short-circuit order — contains an *entry
(file or directory)* whose name has the source stem as a substring together
with a test-naming marker. -/
theorem annotate_needs_test_iff (tc : TestChecker) (fs : List FsFile)
    (metas : List FileRecord) (r : FileRecord) (hr : r ∈ tc.annotate fs metas) :
    r.needs_test = some true ↔
      ¬ (ScopeTestMatch tc fs r.path.dropLast false
           (nameStem (pathName r.path)) ∨
         ScopeTestMatch tc fs (r.path.dropLast ++ ["tests"]) false
           (nameStem (pathName r.path)) ∨
         ScopeTestMatch tc fs tc.tests_root true
           (nameStem (pathName r.path))) := by
  rcases List.mem_map.mp hr with ⟨m, -, rfl⟩
  show some (!tc.test_found fs m.path) = some true ↔ _
  constructor
  · intro h hS
    have htf := (test_found_iff tc fs m.path).mpr hS
    rw [htf] at h
    cases h
  · intro h
    cases htf : tc.test_found fs m.path with
    | false => rfl
    | true => exact absurd ((test_found_iff tc fs m.path).mp htf) h

/-- Witness for the amended C1: a match that exists only under the project
test root (scope 3, recursively) clears the flag. -/
theorem annotate_needs_test_iff_witness :
    ({ appRecord with needs_test := some false } ∈
      chkTC.annotate chkFs [appRecord]) ∧
    (({ appRecord with needs_test := some false } : FileRecord).needs_test =
        some true ↔
      ¬ (ScopeTestMatch chkTC chkFs
           ({ appRecord with needs_test := some false } : FileRecord).path.dropLast
           false (nameStem (pathName
             ({ appRecord with needs_test := some false } : FileRecord).path)) ∨
         ScopeTestMatch chkTC chkFs
           (({ appRecord with needs_test := some false } : FileRecord).path.dropLast
             ++ ["tests"]) false (nameStem (pathName
             ({ appRecord with needs_test := some false } : FileRecord).path)) ∨
         ScopeTestMatch chkTC chkFs chkTC.tests_root true
           (nameStem (pathName
             ({ appRecord with needs_test := some false } : FileRecord).path)))) :=
  ⟨by decide,
   annotate_needs_test_iff chkTC chkFs [appRecord]
     { appRecord with needs_test := some false } (by decide)⟩

lemma nameStem_prefix (nm : String) : ∃ t, (nameStem nm).data ++ t = nm.data := by
  unfold nameStem
  split
  · exact ⟨[], by simp⟩
  · rename_i i h
    split
    · exact ⟨nm.data.drop i, List.take_append_drop i nm.data⟩
    · exact ⟨[], by simp⟩

lemma pathName_decomp (p : SegPath) (h : p ≠ []) :
    p.dropLast ++ [pathName p] = p := by
  have hname : pathName p = p.getLast h := by
    unfold pathName
    rw [List.getLastD_eq_getLast?, List.getLast?_eq_getLast p h]
    rfl
  rw [hname]
  exact List.dropLast_append_getLast h

/-- C10: a source file whose own name carries a test-naming marker matches
the scope-1 glob itself, so `annotate` always sets its `needs_test` to
`false`, even with no separate test artifact anywhere. -/
theorem annotate_self_marked (tc : TestChecker) (fs : List FsFile)
    (metas : List FileRecord) (r : FileRecord) (hr : r ∈ tc.annotate fs metas)
    (f : FsFile) (hf : f ∈ fs) (hfp : f.path = r.path) (hne : r.path ≠ [])
    (pat : String) (hpat : pat ∈ tc.test_patterns)
    (hmark : strIn pat (pathName r.path) = true) :
    r.needs_test = some false := by
  rcases List.mem_map.mp hr with ⟨m, -, rfl⟩
  replace hfp : f.path = m.path := hfp
  replace hne : m.path ≠ [] := hne
  replace hmark : strIn pat (pathName m.path) = true := hmark
  show some (!tc.test_found fs m.path) = some false
  have hS : ScopeTestMatch tc fs m.path.dropLast false
      (nameStem (pathName m.path)) := by
    refine ⟨pathName m.path, ⟨f, hf, [], [], ?_, fun _ => rfl⟩, ?_,
      pat, hpat, (strIn_iff _ _).mp hmark⟩
    · rw [hfp, List.append_nil]
      exact (pathName_decomp m.path hne).symm
    · obtain ⟨t, ht⟩ := nameStem_prefix (pathName m.path)
      exact ⟨[], t, by simpa using ht⟩
  have htf : tc.test_found fs m.path = true :=
    (test_found_iff tc fs m.path).mpr (Or.inl hS)
  rw [htf]
  rfl

/-- Witness for C10: `test_utils.py` alone in the tree is annotated
`needs_test = false` because its own name matches. -/
theorem annotate_self_marked_witness :
    ({ selfRecord with needs_test := some false } ∈
      chkTC.annotate selfFs [selfRecord]) ∧
    ((⟨["test_utils.py"], 1, none⟩ : FsFile) ∈ selfFs) ∧
    ((⟨["test_utils.py"], 1, none⟩ : FsFile).path =
      ({ selfRecord with needs_test := some false } : FileRecord).path) ∧
    (({ selfRecord with needs_test := some false } : FileRecord).path ≠ []) ∧
    ("test_" ∈ chkTC.test_patterns) ∧
    (strIn "test_" (pathName
      ({ selfRecord with needs_test := some false } : FileRecord).path) = true) ∧
    ({ selfRecord with needs_test := some false } : FileRecord).needs_test =
      some false :=
  ⟨by decide, by decide, by decide, by decide, by decide, by decide,
   annotate_self_marked chkTC selfFs [selfRecord]
     { selfRecord with needs_test := some false } (by decide)
     ⟨["test_utils.py"], 1, none⟩ (by decide) (by decide) (by decide)
     "test_" (by decide) (by decide)⟩
